import Mathlib

/-
Verification of `filetree.py` (module `filetree`): a library that snapshots
file/directory trees (`Filetree`, `Dirtree`), filters them by pattern, and
compares pairs of trees by size, by element set and by binary content.

The embedding below follows the Python source function by function.  Python
strings are Lean `String`s (Python string slicing, joining and comparison are
modeled on `String.data`, the underlying character list, because those Lean
`String` primitives that are implemented by well-founded recursion do not
reduce in the kernel).  Python `set` objects are `Finset String`.  Python
exceptions are `Except Unit` results.  File contents are modeled as a map
from absolute path to a byte list, and digest functions as maps from byte
lists to strings.
-/

/- ===================================================================
   Model of the fragment of Python regular expressions exercised by
   `Basetree.filter`: literal characters, the wildcard `.` (which, as in
   Python's default mode, matches any character except a newline — the
   source calls `re.fullmatch` with no flags) and the postfix Kleene star
   `*`.  `Basetree.filter` hands `re.fullmatch` either the raw user
   expression (`regex=True`) or the user expression wrapped into
   `.*expression.*` (`regex=False`).
   =================================================================== -/

/-- Abstract syntax of the modeled regular-expression fragment. -/
inductive Regex where
  | fail : Regex
  | eps : Regex
  | char (c : Char) : Regex
  | any : Regex
  | alt (r1 r2 : Regex) : Regex
  | cat (r1 r2 : Regex) : Regex
  | star (r : Regex) : Regex
deriving DecidableEq

/-- Does the regular expression match the empty string? -/
def nullable : Regex → Bool
  | .fail => false
  | .eps => true
  | .char _ => false
  | .any => false
  | .alt r1 r2 => nullable r1 || nullable r2
  | .cat r1 r2 => nullable r1 && nullable r2
  | .star _ => true

/-- Brzozowski derivative of a regular expression by one character.  In the
`.any` case the wildcard `.` matches any character except a newline, as in
Python's default mode (the source calls `re.fullmatch` with no flags, so
`re.DOTALL` is off). -/
def rderiv : Regex → Char → Regex
  | .fail, _ => .fail
  | .eps, _ => .fail
  | .char c, a => if c = a then .eps else .fail
  | .any, a => if a = '\n' then .fail else .eps
  | .alt r1 r2, a => .alt (rderiv r1 a) (rderiv r2 a)
  | .cat r1 r2, a =>
    if nullable r1 then .alt (.cat (rderiv r1 a) r2) (rderiv r2 a)
    else .cat (rderiv r1 a) r2
  | .star r, a => .cat (rderiv r a) (.star r)

/-- Executable full-string matcher (the semantics of `re.fullmatch` on the
modeled fragment): `rmatch r s = true` iff `r` matches all of `s`. -/
def rmatch : Regex → List Char → Bool
  | r, [] => nullable r
  | r, a :: as => rmatch (rderiv r a) as

theorem fail_rmatch (x : List Char) : rmatch .fail x = false := by
  induction x <;> simp_all [rmatch, nullable, rderiv]

theorem eps_rmatch_iff (x : List Char) : rmatch .eps x = true ↔ x = [] := by
  cases x with
  | nil => simp [rmatch, nullable]
  | cons a as => simp [rmatch, rderiv, fail_rmatch]

theorem char_rmatch_iff (c : Char) (x : List Char) :
    rmatch (.char c) x = true ↔ x = [c] := by
  cases x with
  | nil => simp [rmatch, nullable]
  | cons a as =>
    by_cases h : c = a
    · subst h
      simp [rmatch, rderiv, eps_rmatch_iff]
    · simp [rmatch, rderiv, h, fail_rmatch]
      exact fun hc => absurd hc.symm h

theorem any_rmatch_iff (x : List Char) :
    rmatch .any x = true ↔ ∃ c, x = [c] ∧ c ≠ '\n' := by
  cases x with
  | nil => simp [rmatch, nullable]
  | cons a as =>
    show rmatch (rderiv .any a) as = true ↔ _
    rw [rderiv]
    by_cases ha : a = '\n'
    · subst ha
      rw [if_pos rfl]
      simp [fail_rmatch]
    · rw [if_neg ha, eps_rmatch_iff]
      constructor
      · rintro rfl
        exact ⟨a, rfl, ha⟩
      · rintro ⟨c, hc, -⟩
        exact (List.cons.inj hc).2

theorem alt_rmatch_iff (r1 r2 : Regex) (x : List Char) :
    rmatch (.alt r1 r2) x = true ↔ rmatch r1 x = true ∨ rmatch r2 x = true := by
  induction x generalizing r1 r2 with
  | nil => simp [rmatch, nullable]
  | cons a as ih =>
    simp only [rmatch, rderiv]
    exact ih _ _

theorem cat_rmatch_iff (r1 r2 : Regex) (x : List Char) :
    rmatch (.cat r1 r2) x = true ↔
      ∃ t u : List Char, x = t ++ u ∧ rmatch r1 t = true ∧ rmatch r2 u = true := by
  induction x generalizing r1 r2 with
  | nil =>
    simp only [rmatch, nullable, Bool.and_eq_true]
    constructor
    · rintro ⟨h1, h2⟩
      exact ⟨[], [], rfl, h1, h2⟩
    · rintro ⟨t, u, h, h1, h2⟩
      rcases List.append_eq_nil.1 h.symm with ⟨ht, hu⟩
      subst ht; subst hu
      exact ⟨h1, h2⟩
  | cons a as ih =>
    simp only [rmatch, rderiv]
    cases he : nullable r1 with
    | true =>
      simp only [if_true, alt_rmatch_iff, ih]
      constructor
      · rintro (⟨t, u, h, h1, h2⟩ | h2)
        · exact ⟨a :: t, u, by simp [h], h1, h2⟩
        · exact ⟨[], a :: as, rfl, by simpa [rmatch, nullable] using he, h2⟩
      · rintro ⟨t, u, h, h1, h2⟩
        cases t with
        | nil =>
          right
          simp only [List.nil_append] at h
          rwa [← h] at h2
        | cons b t =>
          left
          simp only [List.cons_append, List.cons.injEq] at h
          refine ⟨t, u, h.2, ?_, h2⟩
          rw [rmatch] at h1
          rwa [h.1]
    | false =>
      simp only [Bool.false_eq_true, if_false, ih]
      constructor
      · rintro ⟨t, u, h, h1, h2⟩
        exact ⟨a :: t, u, by simp [h], h1, h2⟩
      · rintro ⟨t, u, h, h1, h2⟩
        cases t with
        | nil =>
          rw [rmatch] at h1
          rw [h1] at he
          cases he
        | cons b t =>
          simp only [List.cons_append, List.cons.injEq] at h
          refine ⟨t, u, h.2, ?_, h2⟩
          rw [rmatch] at h1
          rwa [h.1]

theorem anyStar_rmatch (x : List Char) :
    rmatch (.star .any) x = true ↔ '\n' ∉ x := by
  induction x with
  | nil => simp [rmatch, nullable]
  | cons a as ih =>
    show rmatch (.cat (rderiv .any a) (.star .any)) as = true ↔ _
    rw [rderiv]
    by_cases ha : a = '\n'
    · subst ha
      rw [if_pos rfl]
      constructor
      · intro hm
        rw [cat_rmatch_iff] at hm
        obtain ⟨t, u, -, hfail, -⟩ := hm
        rw [fail_rmatch] at hfail
        cases hfail
      · intro hm
        exact absurd (List.mem_cons_self _ _) hm
    · rw [if_neg ha, cat_rmatch_iff]
      constructor
      · rintro ⟨t, u, heq, ht, hu⟩
        rw [eps_rmatch_iff] at ht
        subst ht
        rw [List.nil_append] at heq
        subst heq
        intro hmem
        rcases List.mem_cons.mp hmem with h1 | h2
        · exact ha h1.symm
        · exact (ih.mp hu) h2
      · intro hm
        refine ⟨[], as, rfl, by rw [eps_rmatch_iff], ih.mpr ?_⟩
        intro h2
        exact hm (List.mem_cons_of_mem _ h2)

/-- The right-nested regex the parser produces for the literal characters `E`
followed by a trailing `.*`: used to describe the parse of `.*E.*`. -/
def litTail : List Char → Regex
  | [] => .cat (.star .any) .eps
  | c :: cs => .cat (.char c) (litTail cs)

/-- The regex the parser produces for the whole pattern `.*E.*` when `E` is a
list of literal (non-metacharacter) characters. -/
def wrapped (E : List Char) : Regex := .cat (.star .any) (litTail E)

theorem litTail_rmatch_iff (E u : List Char) :
    rmatch (litTail E) u = true ↔ ∃ post, u = E ++ post ∧ '\n' ∉ post := by
  induction E generalizing u with
  | nil =>
    simp only [litTail, cat_rmatch_iff, eps_rmatch_iff, anyStar_rmatch]
    constructor
    · rintro ⟨t, v, h, hnl, hv⟩
      subst hv
      rw [List.append_nil] at h
      subst h
      exact ⟨u, rfl, hnl⟩
    · rintro ⟨post, h, hnl⟩
      rw [List.nil_append] at h
      subst h
      exact ⟨u, [], by simp, hnl, rfl⟩
  | cons c cs ih =>
    simp only [litTail, cat_rmatch_iff, char_rmatch_iff, ih]
    constructor
    · rintro ⟨t, v, h, ht, post, hv, hnl⟩
      exact ⟨post, by simp [h, ht, hv], hnl⟩
    · rintro ⟨post, h, hnl⟩
      exact ⟨[c], cs ++ post, by simp [h], rfl, post, rfl, hnl⟩

theorem wrapped_rmatch_iff (E s : List Char) :
    rmatch (wrapped E) s = true ↔
      ∃ pre post, s = pre ++ E ++ post ∧ '\n' ∉ pre ∧ '\n' ∉ post := by
  simp only [wrapped, cat_rmatch_iff, litTail_rmatch_iff, anyStar_rmatch]
  constructor
  · rintro ⟨t, v, h, hnt, post, hv, hnl⟩
    exact ⟨t, post, by simp [h, hv], hnt, hnl⟩
  · rintro ⟨pre, post, h, hnp, hnl⟩
    exact ⟨pre, E ++ post, by simp [h], hnp, post, rfl, hnl⟩

/-- The characters Python's `re` syntax treats specially.  The parser below
supports `.` and `*` and refuses the rest, so that every pattern it does
parse is parsed exactly as Python parses it. -/
def metachars : List Char :=
  ['.', '*', '+', '?', '(', ')', '[', ']', '\x7b', '\x7d', '|', '\\', '^', '$']

/-- Parse one pattern atom: the wildcard `.`, a literal character, or an
unsupported metacharacter (refused). -/
def parseAtom (c : Char) : Option Regex :=
  if c = '.' then some .any
  else if c ∈ metachars then none
  else some (.char c)

/-- Parser for the modeled fragment of Python's pattern syntax: a sequence of
atoms, each optionally followed by `*`.  `none` models `re.error` (and also
covers syntax the model does not support).  Like Python, it refuses a `*`
with nothing to repeat (for example the whole pattern `*` or a double `a**`). -/
def parsePat : List Char → Option Regex
  | [] => some .eps
  | c :: '*' :: rest =>
    match parseAtom c, parsePat rest with
    | some a, some r => some (.cat (.star a) r)
    | _, _ => none
  | c :: rest =>
    match parseAtom c, parsePat rest with
    | some a, some r => some (.cat a r)
    | _, _ => none

theorem parsePat_litTail (E : List Char) (h : ∀ c ∈ E, c ∉ metachars) :
    parsePat (E ++ ['.', '*']) = some (litTail E) := by
  induction E with
  | nil => rfl
  | cons c cs ih =>
    have hc : c ∉ metachars := h c (by simp)
    have hdot : ¬c = '.' := fun hc2 => hc (hc2 ▸ by simp [metachars])
    have hatom : parseAtom c = some (.char c) := by
      simp [parseAtom, hdot, hc]
    have ihc : parsePat (cs ++ ['.', '*']) = some (litTail cs) :=
      ih (fun d hd => h d (by simp [hd]))
    cases cs with
    | nil =>
      simp only [List.nil_append] at ihc
      simp [parsePat, parseAtom, hdot, hc, litTail]
    | cons d ds =>
      have hdstar : ¬d = '*' := fun hd2 => (h d (by simp [hd2])) (hd2 ▸ by simp [metachars])
      simp only [List.cons_append]
      rw [parsePat.eq_def]
      simp only [List.cons_append] at ihc
      simp [hdstar, hatom, ihc, litTail]

theorem parsePat_wrap (E : List Char) (h : ∀ c ∈ E, c ∉ metachars) :
    parsePat ('.' :: '*' :: (E ++ ['.', '*'])) = some (wrapped E) := by
  have : parsePat (E ++ ['.', '*']) = some (litTail E) := parsePat_litTail E h
  simp [parsePat, parseAtom, this, wrapped]

/-- Model of Python `re.fullmatch(pattern, s)` on the supported fragment:
`none` models a raised `re.error`, `some b` reports whether the entire
string matches. -/
def re_fullmatch (pattern s : String) : Option Bool :=
  (parsePat pattern.data).map (fun r => rmatch r s.data)

/- ===================================================================
   Python string comparison and `list.sort()`.  Python compares strings
   lexicographically by code point; `list.sort()` sorts ascending.  The
   comparison is written as a structurally recursive Boolean so that it
   evaluates inside the kernel (Lean's own `String` order is implemented by
   well-founded recursion and does not).
   =================================================================== -/

/-- Code-point lexicographic strict order on character lists (the order by
which Python compares strings). -/
def lexLt : List Char → List Char → Bool
  | _, [] => false
  | [], _ :: _ => true
  | a :: as, b :: bs => if a < b then true else if b < a then false else lexLt as bs

theorem lexLt_iff_lex (x y : List Char) :
    lexLt x y = true ↔ List.Lex (· < ·) x y := by
  induction x generalizing y with
  | nil =>
    cases y with
    | nil =>
      simp only [lexLt, Bool.false_eq_true, false_iff]
      intro h; cases h
    | cons b bs =>
      simp only [lexLt, true_iff]
      exact List.Lex.nil
  | cons a as ih =>
    cases y with
    | nil =>
      simp only [lexLt, Bool.false_eq_true, false_iff]
      intro h; cases h
    | cons b bs =>
      simp only [lexLt]
      by_cases hab : a < b
      · rw [if_pos hab]
        simp only [true_iff]
        exact List.Lex.rel hab
      · rw [if_neg hab]
        by_cases hba : b < a
        · rw [if_pos hba]
          simp only [Bool.false_eq_true, false_iff]
          intro h
          cases h with
          | cons h2 => exact absurd hba (lt_irrefl a)
          | rel h2 => exact hab h2
        · have heq : a = b := le_antisymm (not_lt.mp hba) (not_lt.mp hab)
          subst heq
          rw [if_neg hba, ih]
          constructor
          · exact fun h => List.Lex.cons h
          · intro h
            cases h with
            | cons h2 => exact h2
            | rel h2 => exact absurd h2 (lt_irrefl a)

theorem lexLt_iff_lt (a b : String) : lexLt a.data b.data = true ↔ a < b := by
  rw [String.lt_iff_toList_lt]
  exact lexLt_iff_lex a.data b.data

/-- Python's ascending sort order on strings: `a` may precede `b` iff `b` is
not strictly smaller than `a`. -/
def pyLe (a b : String) : Bool := !(lexLt b.data a.data)

theorem pyLe_iff_le (a b : String) : pyLe a b = true ↔ a ≤ b := by
  rw [pyLe, Bool.not_eq_true', ← Bool.not_eq_true, ← not_lt]
  exact not_congr (lexLt_iff_lt b a)

/-- The ordering relation used by the model of Python `list.sort()`. -/
def pyLeRel (a b : String) : Prop := pyLe a b = true

instance : DecidableRel pyLeRel :=
  fun a b => inferInstanceAs (Decidable (pyLe a b = true))

instance : IsTotal String pyLeRel :=
  ⟨fun a b => by simp only [pyLeRel, pyLe_iff_le]; exact le_total a b⟩

instance : IsTrans String pyLeRel :=
  ⟨fun a b c hab hbc => by
    simp only [pyLeRel, pyLe_iff_le] at *
    exact le_trans hab hbc⟩

/-- Model of Python `list.sort()` on a list of strings (ascending; the choice
of sorting algorithm is observationally irrelevant). -/
def pySort (l : List String) : List String := List.insertionSort pyLeRel l

theorem pySort_perm (l : List String) : List.Perm (pySort l) l :=
  List.perm_insertionSort pyLeRel l

theorem pySort_nodup_strict (l : List String) (h : l.Nodup) :
    (pySort l).Nodup ∧ (pySort l).Sorted (· < ·) := by
  have hnd : (pySort l).Nodup := ((pySort_perm l).nodup_iff).mpr h
  refine ⟨hnd, ?_⟩
  have hs : (pySort l).Sorted (· ≤ ·) :=
    (List.sorted_insertionSort pyLeRel l).imp (fun hab => (pyLe_iff_le _ _).mp hab)
  exact hs.lt_of_le hnd

/- ===================================================================
   The tree data model: class `Basetree` and its subclasses `Filetree`
   (kind `.file`) and `Dirtree` (kind `.dir`).
   =================================================================== -/

/-- Which concrete subclass a tree object is an instance of. -/
inductive TreeKind where
  | file : TreeKind
  | dir : TreeKind
deriving DecidableEq

/-- State of a `Basetree` instance.  `path` is the attribute `_abspath`
(exposed by the `path` property), `elements` is `_elemlist` and
`applied_filters` is `_applied_filters`; `leadingpath` and `rootdir` are set
once by `_seperate_path`. -/
structure Basetree where
  kind : TreeKind
  name : String
  path : String
  leadingpath : String
  rootdir : String
  elements : List String
  applied_filters : List String
deriving DecidableEq

/-- The `size` property: `len(self._elemlist)`. -/
def Basetree.size (t : Basetree) : Nat := t.elements.length

/- ===================================================================
   `Basetree.filter(expression, inplace=False, regex=False, invert=False)`.
   =================================================================== -/

/-- The pattern string `Basetree.filter` hands to `re.fullmatch`: the raw
expression when `regex=True`, otherwise the expression wrapped (unescaped)
into `.*expression.*`. -/
def preparedPattern (expression : String) (regex : Bool) : String :=
  if !regex then ".*" ++ expression ++ ".*" else expression

/-- One iteration of the filter loop: does `nm` survive?  `Except.error`
models the `re.error` escaping from `re.fullmatch` on an invalid pattern. -/
def matchStep (expression : String) (invert : Bool) (nm : String) : Except Unit Bool :=
  match re_fullmatch expression nm with
  | none => .error ()
  | some b => .ok (if invert then !b else b)

/-- The `for name in self.elements` loop of `Basetree.filter`, building the
local `filtered` list.  An invalid pattern raises on the first element,
before the receiver is touched; on an empty element list `re.fullmatch` is
never reached, so nothing can raise. -/
def filterLoop (expression : String) (invert : Bool) : List String → Except Unit (List String)
  | [] => .ok []
  | nm :: rest =>
    match matchStep expression invert nm with
    | .error e => .error e
    | .ok keep =>
      match filterLoop expression invert rest with
      | .error e => .error e
      | .ok tl => .ok (if keep then nm :: tl else tl)

/-- Observable outcome of a call to `Basetree.filter`: the receiver's state
after the call, and either the raised exception or the returned value
(`some copy` in the copying mode, `none` for Python's `None` in the
in-place mode). -/
structure FilterOutcome where
  receiver : Basetree
  ret : Except Unit (Option Basetree)

/-- Model of `Basetree.filter`.  Mirrors the source order: run the matching
loop into `filtered`, then (only on success) build the inverted filter-log
entry and either mutate the receiver or return a deep copy with the new
`elements` and `applied_filters`. -/
def Basetree.filter (self : Basetree) (expression : String)
    (inplace regex invert : Bool) : FilterOutcome :=
  let expr1 := preparedPattern expression regex
  match filterLoop expr1 invert self.elements with
  | .error e => { receiver := self, ret := .error e }
  | .ok filtered =>
    let expr2 := if invert then "!><" ++ expr1 else expr1
    let newtree : Basetree :=
      { self with elements := filtered, applied_filters := self.applied_filters ++ [expr2] }
    if inplace then { receiver := newtree, ret := .ok none }
    else { receiver := self, ret := .ok (some newtree) }

theorem filterLoop_ok (r : Regex) (expression : String) (invert : Bool)
    (hp : parsePat expression.data = some r) (l : List String) :
    filterLoop expression invert l =
      .ok (l.filter (fun nm =>
        if invert then !(rmatch r nm.data) else rmatch r nm.data)) := by
  induction l with
  | nil => rfl
  | cons nm rest ih =>
    rw [filterLoop, ih]
    simp only [matchStep, re_fullmatch, hp, Option.map_some, List.filter_cons]
    cases hk : (if invert then !(rmatch r nm.data) else rmatch r nm.data) <;> simp [hk]

theorem filterLoop_error (expression : String) (invert : Bool)
    (hp : parsePat expression.data = none) (l : List String) (hl : l ≠ []) :
    filterLoop expression invert l = .error () := by
  cases l with
  | nil => exact absurd rfl hl
  | cons nm rest => simp [filterLoop, matchStep, re_fullmatch, hp]

/- ===================================================================
   The module-level comparison functions `compare_size`, `compare_set`,
   `compare_binary` and the hashing helper `_hash`.
   =================================================================== -/

/-- Abstract model of `hashlib.md5`'s hex digest of a byte string.  No claim
depends on concrete digest values — only on digests of the concrete byte
strings used in the examples being distinct, which holds for real md5 too —
so the model realizes the digest with an injective encoding. -/
def md5 (bs : List Nat) : String :=
  String.mk (bs.map (fun b => Char.ofNat (48 + b % 256)))

/-- Model of `_hash(filepath, method=md5)`: read the file at `filepath` and
return `method`'s digest of its bytes.  `content` is the filesystem's
path-to-bytes map; reading in 1024-byte chunks and updating the hasher is
observationally the digest of the whole byte string. -/
def _hash (content : String → List Nat) (method : List Nat → String)
    (filepath : String) : String :=
  method (content filepath)

/-- Result record of `compare_size`; the code stores the two sizes in
attributes `na` and `nb`. -/
structure SizeResult where
  result : Bool
  na : Nat
  nb : Nat
deriving DecidableEq

/-- Model of `compare_size`. -/
def compare_size (tree_a tree_b : Basetree) : SizeResult :=
  { result := decide (tree_a.size = tree_b.size),
    na := tree_a.size, nb := tree_b.size }

/-- Result record of `compare_set`: `missing_a` are elements of B absent
from A, `missing_b` elements of A absent from B.  Python builds lists from
sets with unspecified iteration order, so the model keeps the sets. -/
structure SetResult where
  result : Bool
  missing_a : Finset String
  missing_b : Finset String
deriving DecidableEq

/-- Model of `compare_set`. -/
def compare_set (tree_a tree_b : Basetree) : SetResult :=
  let set_a := tree_a.elements.toFinset
  let set_b := tree_b.elements.toFinset
  if set_a = set_b then
    { result := true, missing_a := ∅, missing_b := ∅ }
  else
    { result := false, missing_a := set_b \ set_a, missing_b := set_a \ set_b }

/-- Result record of `compare_binary`, with an extra `warned` flag recording
whether `warnings.warn` was signalled during the call. -/
structure BinResult where
  result : Bool
  diff : Option (Finset String)
  warned : Bool
deriving DecidableEq

/-- The candidate domain `comp_set` computed inside `compare_binary`: all
files of both trees minus both set differences.  The `except TypeError`
fallback to `tree_a.files` in the source is unreachable in the model: all
elements are strings and therefore hashable. -/
def binary_comp_set (tree_a tree_b : Basetree) : Finset String :=
  let set_result := compare_set tree_a tree_b
  let allfiles := tree_a.elements.toFinset ∪ tree_b.elements.toFinset
  let excluded := set_result.missing_a ∪ set_result.missing_b
  allfiles \ excluded

/-- Model of `compare_binary(tree_a, tree_b, hashmethod=md5)`.  Faithful
quirk of the source: the `hashmethod` argument is accepted, but the two
`_hash` calls in the loop pass no method argument, so they always use
`_hash`'s own default `md5`. -/
def compare_binary (content : String → List Nat) (tree_a tree_b : Basetree)
    (hashmethod : List Nat → String) : BinResult :=
  if ¬(tree_a.kind = .file ∧ tree_b.kind = .file) then
    { result := true, diff := none, warned := true }
  else
    let comp_set := binary_comp_set tree_a tree_b
    let diff := comp_set.filter (fun filename =>
      _hash content md5 (tree_a.path ++ "/" ++ filename) ≠
        _hash content md5 (tree_b.path ++ "/" ++ filename))
    { result := decide (diff.card = 0), diff := some diff, warned := false }

/-- The three result shapes `Basetree.compare` can return. -/
inductive CompareResult where
  | size (r : SizeResult)
  | set (r : SetResult)
  | binary (r : BinResult)

/-- Model of `Basetree.compare(tree, method)`.  For any method string other
than the four recognized ones, the local variable `res` is never assigned
and the final `return res` raises `UnboundLocalError`, modeled by `.error`. -/
def Basetree.compare (content : String → List Nat) (self tree : Basetree)
    (method : String) : Except Unit CompareResult :=
  if method = "size" then .ok (.size (compare_size self tree))
  else if method = "set" then .ok (.set (compare_set self tree))
  else if method ∈ (["binary", "bin"] : List String) then
    .ok (.binary (compare_binary content self tree md5))
  else .error ()

/- ===================================================================
   Path handling: `_parse_path_argument` and `_seperate_path`.
   =================================================================== -/

/-- Model of `Basetree._parse_path_argument(path)`; `cwd` models
`os.getcwd()`.  The Python string operations are modeled on the character
list: `path.endswith("/")` checks the last character, `path[0:-1]` is
`dropRight 1`, `path.startswith("/")` checks the first character,
`path.startswith("./")` the first two, `path[2:]` is `drop 2`, and
`"/".join([cwd, path])` is `cwd ++ "/" ++ path`. -/
def _parse_path_argument (cwd path : String) : String :=
  let path := if path.data.getLast? = some '/' then path.dropRight 1 else path
  if path.data.head? = some '/' then path
  else if path.data.take 2 = ['.', '/'] then cwd ++ "/" ++ path.drop 2
  else cwd ++ "/" ++ path

/-- Model of `Basetree._seperate_path(path)`: split on `/`, rebuild the
leading path from the middle segments, and take the last segment as the
directory name, falling back to the second-to-last when the last is empty. -/
def _seperate_path (path : String) : String × String :=
  let path_elements := (path.data.splitOn '/').map (fun l => String.mk l)
  let leadingpath :=
    "/" ++ String.intercalate "/" ((path_elements.drop 1).dropLast) ++ "/"
  let directory :=
    if (path_elements.getLast?.getD "") = "" then
      (path_elements.dropLast.getLast?.getD "")
    else path_elements.getLast?.getD ""
  (leadingpath, directory)

/- ===================================================================
   Filesystem model, `os.walk`, `os.listdir`, and the tree constructors
   `Filetree.__init__` / `Dirtree.__init__`.
   =================================================================== -/

/-- A filesystem directory: a readability flag (can it be listed?), the
names of the regular files in it, and its named subdirectories. -/
inductive FSys where
  | dir (readable : Bool) (files : List String) (subs : List (String × FSys))

/-- Can the root directory itself be listed? -/
def FSys.isReadable : FSys → Bool
  | .dir r _ _ => r

mutual

/-- Model of `os.walk(top)` with the default `onerror=None`: yield the
triple `(root, dirnames, filenames)` for the current directory, then walk
each subdirectory.  A directory that cannot be listed contributes nothing:
Python documents that, by default, errors from the `scandir()` call inside
`os.walk` are ignored, so an unreadable directory is silently skipped. -/
def walk (root : String) : FSys → List (String × List String × List String)
  | .dir false _ _ => []
  | .dir true fls subs => (root, subs.map Prod.fst, fls) :: walkList root subs

/-- Walk of the subdirectory list, in order. -/
def walkList (root : String) :
    List (String × FSys) → List (String × List String × List String)
  | [] => []
  | (n, s) :: rest => walk (root ++ "/" ++ n) s ++ walkList root rest

end

/-- Model of `os.listdir(path)` applied to the tree root: raises unless the
root is listable, otherwise returns the entry names. -/
def listdir : FSys → Except Unit (List String)
  | .dir false _ _ => .error ()
  | .dir true fls subs => .ok (fls ++ subs.map Prod.fst)

/-- Model of `Basetree._create_abslist(tree, dirsonly)`: for each walk
triple and each directory entry (`dirsonly=True`) or file entry
(`dirsonly=False`), append `root/entry` (a falsy — empty — root would
append the bare entry). -/
def _create_abslist (tree : List (String × List String × List String))
    (dirsonly : Bool) : List String :=
  tree.flatMap (fun t =>
    (if dirsonly then t.2.1 else t.2.2).map (fun entry =>
      if t.1 ≠ "" then t.1 ++ "/" ++ entry else entry))

/-- Model of `Basetree._create_rellist(abslist, path)`: strip the first
`len(path) + 1` characters from each absolute path. -/
def _create_rellist (abslist : List String) (path : String) : List String :=
  abslist.map (fun p => p.drop (path.length + 1))

/-- Model of `Filetree.__init__(path, name)`: resolve the root path, walk
it, build the sorted relative file list, then probe the root with
`os.listdir` — the only call in the constructor that raises on an
unlistable root. -/
def Filetree.init (fsys : FSys) (cwd path name : String) : Except Unit Basetree :=
  let abspath := _parse_path_argument cwd path
  let lp := _seperate_path abspath
  let abslist := _create_abslist (walk abspath fsys) false
  let elems := pySort (_create_rellist abslist abspath)
  match listdir fsys with
  | .error e => .error e
  | .ok _ =>
    .ok { kind := .file, name := name, path := abspath, leadingpath := lp.1,
          rootdir := lp.2, elements := elems, applied_filters := [] }

/-- Model of `Dirtree.__init__(path, name)`: as `Filetree.__init__` but
collecting directories, and without the final `os.listdir` probe. -/
def Dirtree.init (fsys : FSys) (cwd path name : String) : Except Unit Basetree :=
  let abspath := _parse_path_argument cwd path
  let lp := _seperate_path abspath
  let abslist := _create_abslist (walk abspath fsys) true
  let elems := pySort (_create_rellist abslist abspath)
  .ok { kind := .dir, name := name, path := abspath, leadingpath := lp.1,
        rootdir := lp.2, elements := elems, applied_filters := [] }

/- ===================================================================
   What `os.walk` guarantees about its output on a real filesystem.
   =================================================================== -/

/-- Properties of a genuine `os.walk(abspath)` result on a real filesystem:
every visited directory is reported exactly once (roots pairwise distinct);
every root is the non-empty `abspath` itself or extends `abspath ++ "/"`;
and within each directory the file names are distinct and slash-free, and
likewise the subdirectory names. -/
def ValidWalk (abspath : String)
    (tr : List (String × List String × List String)) : Prop :=
  (tr.map (fun t => t.1)).Pairwise (· ≠ ·) ∧
  ∀ t ∈ tr,
    (t.1 = abspath ∨ (abspath ++ "/").data <+: t.1.data) ∧ t.1 ≠ "" ∧
    t.2.1.Nodup ∧ (∀ d ∈ t.2.1, '/' ∉ d.data) ∧
    t.2.2.Nodup ∧ (∀ f ∈ t.2.2, '/' ∉ f.data)

theorem slash_append_inj (x1 : List Char) (x2 y1 y2 : List Char)
    (h1 : '/' ∉ x1) (h2 : '/' ∉ x2)
    (h : x1 ++ '/' :: y1 = x2 ++ '/' :: y2) : x1 = x2 ∧ y1 = y2 := by
  induction x1 generalizing x2 with
  | nil =>
    cases x2 with
    | nil => simpa using h
    | cons b bs =>
      simp only [List.nil_append, List.cons_append, List.cons.injEq] at h
      rcases h with ⟨hb, -⟩
      subst hb
      exact absurd (List.mem_cons_self _ _) h2
  | cons a as ih =>
    cases x2 with
    | nil =>
      simp only [List.cons_append, List.nil_append, List.cons.injEq] at h
      rcases h with ⟨ha, -⟩
      rw [← ha] at h1
      exact absurd (List.mem_cons_self _ _) h1
    | cons b bs =>
      simp only [List.cons_append, List.cons.injEq] at h
      rcases h with ⟨hab, h⟩
      subst hab
      have h1' : '/' ∉ as := fun hm => h1 (List.mem_cons_of_mem _ hm)
      have h2' : '/' ∉ bs := fun hm => h2 (List.mem_cons_of_mem _ hm)
      rcases ih bs h1' h2' h with ⟨hx, hy⟩
      exact ⟨by rw [hx], hy⟩

theorem data_join (a b : String) :
    (a ++ "/" ++ b).data = a.data ++ '/' :: b.data := by
  simp [String.data_append]

theorem create_abslist_nodup (abspath : String)
    (tr : List (String × List String × List String)) (dirsonly : Bool)
    (hv : ValidWalk abspath tr) :
    (_create_abslist tr dirsonly).Nodup := by
  obtain ⟨hroots, hall⟩ := hv
  rw [_create_abslist, List.nodup_flatMap]
  constructor
  · intro t ht
    obtain ⟨-, hne, hdn, hds, hfn, hfs⟩ := hall t ht
    have hfun : (fun entry => if t.1 ≠ "" then t.1 ++ "/" ++ entry else entry) =
        (fun entry : String => t.1 ++ "/" ++ entry) :=
      funext fun e => if_pos hne
    rw [hfun]
    apply List.Nodup.map_on
    · intro x _ y _ hxy
      have hd : t.1.data ++ '/' :: x.data = t.1.data ++ '/' :: y.data := by
        have := congrArg String.data hxy
        rwa [data_join, data_join] at this
      have := List.append_cancel_left hd
      exact String.ext (List.cons.inj this).2
    · cases dirsonly with
      | true => simpa using hdn
      | false => simpa using hfn
  · have hp : tr.Pairwise (fun t u => t.1 ≠ u.1) := List.pairwise_map.mp hroots
    refine hp.imp_of_mem ?_
    intro t u ht hu hne x hxt hxu
    obtain ⟨-, htne, -, htds, -, htfs⟩ := hall t ht
    obtain ⟨-, hune, -, huds, -, hufs⟩ := hall u hu
    have hslasht : ∀ e ∈ (if dirsonly then t.2.1 else t.2.2), '/' ∉ e.data := by
      cases dirsonly with
      | true => simpa using htds
      | false => simpa using htfs
    have hslashu : ∀ e ∈ (if dirsonly then u.2.1 else u.2.2), '/' ∉ e.data := by
      cases dirsonly with
      | true => simpa using huds
      | false => simpa using hufs
    simp only [List.mem_map] at hxt hxu
    obtain ⟨e, he, hxe⟩ := hxt
    obtain ⟨f, hf, hxf⟩ := hxu
    rw [if_pos htne] at hxe
    rw [if_pos hune] at hxf
    have hd : t.1.data ++ '/' :: e.data = u.1.data ++ '/' :: f.data := by
      have := congrArg String.data (hxe.trans hxf.symm)
      rwa [data_join, data_join] at this
    have hrev : e.data.reverse ++ '/' :: t.1.data.reverse =
        f.data.reverse ++ '/' :: u.1.data.reverse := by
      have := congrArg List.reverse hd
      simpa [List.reverse_append] using this
    have hmt : '/' ∉ e.data.reverse := by
      intro hm
      exact (hslasht e he) (List.mem_reverse.mp hm)
    have hmu : '/' ∉ f.data.reverse := by
      intro hm
      exact (hslashu f hf) (List.mem_reverse.mp hm)
    obtain ⟨-, hroot⟩ := slash_append_inj _ _ _ _ hmt hmu hrev
    exact hne (String.ext (List.reverse_injective hroot))

theorem create_abslist_pref (abspath : String)
    (tr : List (String × List String × List String)) (dirsonly : Bool)
    (hv : ValidWalk abspath tr) (p : String)
    (hp : p ∈ _create_abslist tr dirsonly) :
    ∃ rest, p.data = (abspath ++ "/").data ++ rest := by
  obtain ⟨-, hall⟩ := hv
  rw [_create_abslist] at hp
  simp only [List.mem_flatMap, List.mem_map] at hp
  obtain ⟨t, ht, e, he, hpe⟩ := hp
  obtain ⟨hroot, hne, -⟩ := hall t ht
  rw [if_pos hne] at hpe
  subst hpe
  rw [data_join]
  cases hroot with
  | inl h =>
    subst h
    refine ⟨e.data, ?_⟩
    simp [String.data_append]
  | inr h =>
    obtain ⟨mid, hmid⟩ := h
    refine ⟨mid ++ '/' :: e.data, ?_⟩
    rw [← hmid, List.append_assoc]

theorem built_elements_nodup_sorted (abspath : String)
    (tr : List (String × List String × List String)) (dirsonly : Bool)
    (hv : ValidWalk abspath tr) :
    (pySort (_create_rellist (_create_abslist tr dirsonly) abspath)).Nodup ∧
    (pySort (_create_rellist (_create_abslist tr dirsonly) abspath)).Sorted (· < ·) := by
  apply pySort_nodup_strict
  rw [_create_rellist]
  apply List.Nodup.map_on
  · intro x hx y hy hxy
    obtain ⟨rx, hrx⟩ := create_abslist_pref abspath tr dirsonly hv x hx
    obtain ⟨ry, hry⟩ := create_abslist_pref abspath tr dirsonly hv y hy
    have hlen : (abspath ++ "/").data.length = abspath.length + 1 := by
      simp [String.data_append]
    have hdx : (x.drop (abspath.length + 1)).data = rx := by
      rw [String.data_drop, hrx, ← hlen, List.drop_left]
    have hdy : (y.drop (abspath.length + 1)).data = ry := by
      rw [String.data_drop, hry, ← hlen, List.drop_left]
    have hr : rx = ry := by
      rw [← hdx, ← hdy, hxy]
    exact String.ext (by rw [hrx, hry, hr])
  · exact create_abslist_nodup abspath tr dirsonly hv

/-- C3.  For every filesystem walk result satisfying the guarantees of a
real `os.walk` (`ValidWalk`), the `elements` of a freshly constructed
`Filetree` and of a freshly constructed `Dirtree` contain no duplicates and
are strictly ascending in the lexicographic string order. -/
theorem constructed_elements_nodup_sorted (fsys : FSys) (cwd path name : String)
    (tF tD : Basetree)
    (hvw : ValidWalk (_parse_path_argument cwd path)
      (walk (_parse_path_argument cwd path) fsys))
    (hF : Filetree.init fsys cwd path name = .ok tF)
    (hD : Dirtree.init fsys cwd path name = .ok tD) :
    (tF.elements.Nodup ∧ tF.elements.Sorted (· < ·)) ∧
    (tD.elements.Nodup ∧ tD.elements.Sorted (· < ·)) := by
  constructor
  · simp only [Filetree.init] at hF
    cases hl : listdir fsys with
    | error e => rw [hl] at hF; cases hF
    | ok v =>
      rw [hl] at hF
      simp only [Except.ok.injEq] at hF
      subst hF
      exact built_elements_nodup_sorted _ _ false hvw
  · simp only [Dirtree.init, Except.ok.injEq] at hD
    subst hD
    exact built_elements_nodup_sorted _ _ true hvw

/- ===================================================================
   Concrete example trees and file contents (the spec's round-trip
   scenario: both roots hold `a/x.txt` = "1" and `a/y.txt`, which is "2"
   under root A and "9" under root B).
   =================================================================== -/

def exA : Basetree :=
  { kind := .file, name := "", path := "/ta", leadingpath := "/", rootdir := "ta",
    elements := ["a/x.txt", "a/y.txt"], applied_filters := [] }

def exB : Basetree :=
  { kind := .file, name := "", path := "/tb", leadingpath := "/", rootdir := "tb",
    elements := ["a/x.txt", "a/y.txt"], applied_filters := [] }

def exContent : String → List Nat := fun p =>
  if p = "/ta/a/x.txt" then [49] else
  if p = "/tb/a/x.txt" then [49] else
  if p = "/ta/a/y.txt" then [50] else
  if p = "/tb/a/y.txt" then [57] else []

/-- C1.  `compare_binary` hashes exactly the relative paths present in both
trees — its candidate domain is the intersection of the two element sets —
and when the two trees have identical file sets and exactly one shared
file's content hashes differently under the two roots, the result has
`result = False` and `diff` holds exactly that file's relative path. -/
theorem compare_binary_intersection_single_diff
    (content : String → List Nat) (A B : Basetree) (f0 : String)
    (hA : A.kind = .file) (hB : B.kind = .file)
    (hsets : A.elements.toFinset = B.elements.toFinset)
    (hf0 : f0 ∈ A.elements.toFinset)
    (hdiff : _hash content md5 (A.path ++ "/" ++ f0) ≠
      _hash content md5 (B.path ++ "/" ++ f0))
    (hsame : ∀ f ∈ A.elements.toFinset, f ≠ f0 →
      _hash content md5 (A.path ++ "/" ++ f) = _hash content md5 (B.path ++ "/" ++ f)) :
    (∀ A2 B2 : Basetree, binary_comp_set A2 B2 =
      A2.elements.toFinset ∩ B2.elements.toFinset) ∧
    (compare_binary content A B md5).result = false ∧
    (compare_binary content A B md5).diff = some {f0} := by
  have hdomain : ∀ A2 B2 : Basetree, binary_comp_set A2 B2 =
      A2.elements.toFinset ∩ B2.elements.toFinset := by
    intro A2 B2
    rw [binary_comp_set, compare_set]
    by_cases h : A2.elements.toFinset = B2.elements.toFinset
    · rw [if_pos h]
      simp [h]
    · rw [if_neg h]
      ext x
      simp only [Finset.mem_sdiff, Finset.mem_union, Finset.mem_inter]
      tauto
  have hcomp : binary_comp_set A B = A.elements.toFinset := by
    rw [hdomain, ← hsets, Finset.inter_self]
  have hfilter : (binary_comp_set A B).filter (fun filename =>
      _hash content md5 (A.path ++ "/" ++ filename) ≠
        _hash content md5 (B.path ++ "/" ++ filename)) = {f0} := by
    rw [hcomp]
    ext x
    simp only [Finset.mem_filter, Finset.mem_singleton]
    constructor
    · rintro ⟨hx, hne⟩
      by_contra hxf
      exact hne (hsame x hx hxf)
    · rintro rfl
      exact ⟨hf0, hdiff⟩
  have hkind : ¬¬(A.kind = .file ∧ B.kind = .file) := not_not_intro ⟨hA, hB⟩
  refine ⟨hdomain, ?_, ?_⟩
  · rw [compare_binary, if_neg hkind]
    simp only [hfilter]
    simp
  · rw [compare_binary, if_neg hkind]
    simp only [hfilter]

theorem compare_binary_intersection_single_diff_witness :
    (compare_binary exContent exA exB md5).result = false ∧
    (compare_binary exContent exA exB md5).diff = some {"a/y.txt"} := by
  have h := compare_binary_intersection_single_diff exContent exA exB "a/y.txt"
    (by decide) (by decide) (by decide) (by decide) (by decide) (by decide)
  exact ⟨h.2.1, h.2.2⟩

/-- C2 (code bug).  The `hashmethod` parameter of `compare_binary` is
accepted but never used: the `_hash` calls in the loop pass no method, so
every candidate file is digested with `_hash`'s own default `md5` whatever
the caller chose.  First conjunct: the result is completely independent of
the `hashmethod` argument.  Second conjunct: with a constant digest — under
which every file would hash equal and a conforming implementation would
report `result = True` — the differing byte contents still yield
`result = False`, because md5 was used instead. -/
theorem compare_binary_ignores_hashmethod :
    (∀ (content : String → List Nat) (tree_a tree_b : Basetree)
        (m1 m2 : List Nat → String),
      compare_binary content tree_a tree_b m1 =
        compare_binary content tree_a tree_b m2) ∧
    (compare_binary exContent exA exB (fun _ => "same") =
      { result := false, diff := some {"a/y.txt"}, warned := false }) ∧
    (∀ bs1 bs2 : List Nat, (fun _ : List Nat => "same") bs1 =
      (fun _ : List Nat => "same") bs2) := by
  refine ⟨fun content a b m1 m2 => rfl, ?_, fun bs1 bs2 => rfl⟩
  decide

/-- C7.  Whenever at least one argument of `compare_binary` is not a
`Filetree` — in particular for two `Dirtree`s — the call completes without
error, reports `result = True` with `diff = None`, and signals the
non-fatal `UserWarning`. -/
theorem compare_binary_dirtree_noop (content : String → List Nat)
    (tree_a tree_b : Basetree) (hashmethod : List Nat → String)
    (h : ¬(tree_a.kind = .file ∧ tree_b.kind = .file)) :
    compare_binary content tree_a tree_b hashmethod =
      { result := true, diff := none, warned := true } := by
  rw [compare_binary, if_pos h]

def exDirA : Basetree :=
  { kind := .dir, name := "", path := "/da", leadingpath := "/", rootdir := "da",
    elements := ["x"], applied_filters := [] }

def exDirB : Basetree :=
  { kind := .dir, name := "", path := "/db", leadingpath := "/", rootdir := "db",
    elements := ["y"], applied_filters := [] }

theorem compare_binary_dirtree_noop_witness :
    compare_binary exContent exDirA exDirB md5 =
      { result := true, diff := none, warned := true } :=
  compare_binary_dirtree_noop exContent exDirA exDirB md5 (by decide)

/-- C10.  `Basetree.compare` returns normally exactly for the method strings
`"size"`, `"set"`, `"binary"` and `"bin"`; for every other string the local
`res` is never assigned and the final `return res` raises
(`UnboundLocalError`), modeled by the `.error` branch. -/
theorem compare_ok_iff_known_method (content : String → List Nat)
    (self tree : Basetree) (method : String) :
    (∃ r, Basetree.compare content self tree method = .ok r) ↔
      method ∈ (["size", "set", "binary", "bin"] : List String) := by
  unfold Basetree.compare
  split_ifs with h1 h2 h3 <;> simp_all

/-- C8 (code bug).  For the root path `"/"`, `_parse_path_argument` first
strips the trailing separator, leaving the empty string, which then fails
the `startswith("/")` test and is joined onto the working directory: the
resulting `rootAbsolutePath` is `cwd + "/"`, which ends with the separator
(and is not even the root directory that was asked for). -/
theorem parse_path_argument_root_slash :
    _parse_path_argument "/home/user" "/" = "/home/user/" ∧
    ("/home/user/").data.getLast? = some '/' := by
  constructor
  · decide
  · decide

/- ===================================================================
   Filter claims.
   =================================================================== -/

def logTree : Basetree :=
  { kind := .file, name := "", path := "/t", leadingpath := "/", rootdir := "t",
    elements := ["a.log", "b.txt", "c.log"], applied_filters := [] }

def dotTree : Basetree :=
  { kind := .file, name := "", path := "/t", leadingpath := "/", rootdir := "t",
    elements := ["x"], applied_filters := [] }

/-- C4 counterexample.  `filter` with `regex=False` does not escape the
expression before wrapping it into `.*expression.*`, so metacharacters stay
live: with expression `"."` the element `"x"` survives the filter although
`"."` does not occur in `"x"` as a literal substring. -/
theorem filter_dot_not_literal :
    (Basetree.filter dotTree "." false false false).ret =
      .ok (some { dotTree with elements := ["x"], applied_filters := [".*..*"] }) ∧
    ¬(".".data <:+: "x".data) := by
  constructor
  · rfl
  · decide

/-- Matches CPython: `re.fullmatch(".*log.*", "a\nlog")` is `None`, because
`.*` cannot cross the newline, even though `log` occurs in `a\nlog` as a
literal substring.  An element containing the expression can therefore
still be dropped when the element contains a newline. -/
theorem wrapped_newline_no_match :
    rmatch (wrapped "log".data) "a\nlog".data = false ∧
    "log".data <:+: "a\nlog".data := by
  constructor
  · decide
  · decide

/-- C4 amended.  With `regex=False` and `invert=False`, `filter` keeps
exactly the elements fullmatched by the regular expression `.*expression.*`
(the expression is substituted unescaped).  For an expression without regex
metacharacters this keeps exactly the elements that contain the expression
with no newline character elsewhere in the element: Python's `.` (and hence
the surrounding `.*`) does not match a newline, so `re.fullmatch` succeeds
iff the parts of the element before and after an occurrence of the
expression are newline-free.  On elements that contain no newline at all,
this is exactly literal substring containment (last conjunct). -/
theorem filter_substring_of_no_metachar (t : Basetree) (E : String)
    (h : ∀ c ∈ E.data, c ∉ metachars) :
    ∃ c, (Basetree.filter t E false false false).ret = .ok (some c) ∧
      c.applied_filters = t.applied_filters ++ [".*" ++ E ++ ".*"] ∧
      (∀ s, s ∈ c.elements ↔ s ∈ t.elements ∧
        ∃ pre post, s.data = pre ++ E.data ++ post ∧ '\n' ∉ pre ∧ '\n' ∉ post) ∧
      (∀ s, s ∈ t.elements → '\n' ∉ s.data →
        (s ∈ c.elements ↔ E.data <:+: s.data)) := by
  have hdata : (".*" ++ E ++ ".*").data = '.' :: '*' :: (E.data ++ ['.', '*']) := by
    simp [String.data_append]
  have hparse : parsePat ((".*" ++ E ++ ".*").data) = some (wrapped E.data) := by
    rw [hdata]; exact parsePat_wrap E.data h
  have hprep : preparedPattern E false = ".*" ++ E ++ ".*" := rfl
  have hloop := filterLoop_ok (wrapped E.data) (".*" ++ E ++ ".*") false hparse t.elements
  simp only [Bool.false_eq_true, if_false] at hloop
  refine ⟨{ t with
      elements := t.elements.filter (fun nm => rmatch (wrapped E.data) nm.data),
      applied_filters := t.applied_filters ++ [".*" ++ E ++ ".*"] }, ?_, rfl, ?_, ?_⟩
  · simp only [Basetree.filter, hprep, hloop, Bool.false_eq_true, if_false]
  · intro s
    rw [List.mem_filter]
    exact and_congr_right fun _ => ⟨fun hm => (wrapped_rmatch_iff E.data s.data).mp hm,
      fun hp => (wrapped_rmatch_iff E.data s.data).mpr hp⟩
  · intro s hs hnl
    rw [List.mem_filter]
    constructor
    · rintro ⟨-, hm⟩
      obtain ⟨pre, post, heq, -, -⟩ := (wrapped_rmatch_iff E.data s.data).mp hm
      exact ⟨pre, post, heq.symm⟩
    · rintro ⟨pre, post, heq⟩
      refine ⟨hs, (wrapped_rmatch_iff E.data s.data).mpr ⟨pre, post, heq.symm, ?_, ?_⟩⟩
      · intro hm
        apply hnl
        rw [← heq]
        simp [List.mem_append, hm]
      · intro hm
        apply hnl
        rw [← heq]
        simp [List.mem_append, hm]

theorem filter_substring_witness :
    (∃ c, (Basetree.filter logTree "log" false false false).ret = .ok (some c) ∧
      c.applied_filters = logTree.applied_filters ++ [".*" ++ "log" ++ ".*"] ∧
      (∀ s, s ∈ c.elements ↔ s ∈ logTree.elements ∧
        ∃ pre post, s.data = pre ++ "log".data ++ post ∧ '\n' ∉ pre ∧ '\n' ∉ post) ∧
      (∀ s, s ∈ logTree.elements → '\n' ∉ s.data →
        (s ∈ c.elements ↔ "log".data <:+: s.data))) ∧
    (Basetree.filter logTree "log" false false false).ret =
      .ok (some { logTree with
        elements := ["a.log", "c.log"],
        applied_filters := [".*log.*"] }) :=
  ⟨filter_substring_of_no_metachar logTree "log" (by decide), by rfl⟩

/-- C5.  For every tree and every expression that yields a valid pattern,
the surviving elements of `filter(E, invert=False)` and of
`filter(E, invert=True)` partition the original elements: no element is in
both, and every original element is in exactly one of the two. -/
theorem filter_invert_partition (t : Basetree) (E : String) (regex : Bool)
    (h : (parsePat (preparedPattern E regex).data).isSome = true) :
    ∃ c1 c2 : Basetree,
      (Basetree.filter t E false regex false).ret = .ok (some c1) ∧
      (Basetree.filter t E false regex true).ret = .ok (some c2) ∧
      (∀ x, ¬(x ∈ c1.elements ∧ x ∈ c2.elements)) ∧
      (∀ x, x ∈ t.elements ↔ (x ∈ c1.elements ∨ x ∈ c2.elements)) := by
  obtain ⟨r, hr⟩ := Option.isSome_iff_exists.mp h
  have hl1 := filterLoop_ok r (preparedPattern E regex) false hr t.elements
  have hl2 := filterLoop_ok r (preparedPattern E regex) true hr t.elements
  simp only [Bool.false_eq_true, if_false, if_true] at hl1 hl2
  refine ⟨{ t with
      elements := t.elements.filter (fun nm => rmatch r nm.data),
      applied_filters := t.applied_filters ++ [preparedPattern E regex] },
    { t with
      elements := t.elements.filter (fun nm => !rmatch r nm.data),
      applied_filters := t.applied_filters ++ ["!><" ++ preparedPattern E regex] },
    ?_, ?_, ?_, ?_⟩
  · simp only [Basetree.filter, hl1, Bool.false_eq_true, if_false]
  · simp only [Basetree.filter, hl2, Bool.false_eq_true, if_false, if_true]
  · intro x hx
    rcases hx with ⟨h1, h2⟩
    simp only [List.mem_filter] at h1 h2
    rw [h1.2] at h2
    exact absurd h2.2 (by decide)
  · intro x
    constructor
    · intro hx
      cases hb : rmatch r x.data with
      | true => exact Or.inl (List.mem_filter.mpr ⟨hx, hb⟩)
      | false => exact Or.inr (List.mem_filter.mpr ⟨hx, by rw [hb]; rfl⟩)
    · rintro (hx | hx)
      · exact (List.mem_filter.mp hx).1
      · exact (List.mem_filter.mp hx).1

theorem filter_invert_partition_witness :
    ∃ c1 c2 : Basetree,
      (Basetree.filter logTree "log" false false false).ret = .ok (some c1) ∧
      (Basetree.filter logTree "log" false false true).ret = .ok (some c2) ∧
      (∀ x, ¬(x ∈ c1.elements ∧ x ∈ c2.elements)) ∧
      (∀ x, x ∈ logTree.elements ↔ (x ∈ c1.elements ∨ x ∈ c2.elements)) :=
  filter_invert_partition logTree "log" false (by decide)

def emptyTree : Basetree :=
  { kind := .file, name := "", path := "/t", leadingpath := "/", rootdir := "t",
    elements := [], applied_filters := [] }

/-- C6 counterexample.  On a tree whose `elements` is empty, `filter` with
the syntactically invalid pattern `"("` and `regex=True` raises nothing —
the loop never reaches `re.fullmatch` — and still appends the invalid
pattern to `applied_filters`, mutating the receiver in the in-place mode.
This refutes both the propagated-error part and the untouched-receiver part
of the claim. -/
theorem filter_invalid_regex_empty_no_error :
    Basetree.filter emptyTree "(" true true false =
      { receiver := { emptyTree with applied_filters := ["("] }, ret := .ok none } := rfl

/-- C6 amended.  When the receiver's `elements` is non-empty, a filter call
with a syntactically invalid pattern and `regex=True` raises the pattern
error out of the first loop iteration, before any mutation: the receiver's
`elements` and `applied_filters` are left unchanged, in both the in-place
and the copying mode.  (With empty `elements` the call instead succeeds and
logs the invalid pattern — see the counterexample.) -/
theorem filter_invalid_regex_atomic (t : Basetree) (E : String)
    (inplace invert : Bool)
    (h1 : t.elements ≠ []) (h2 : parsePat E.data = none) :
    Basetree.filter t E inplace true invert =
      { receiver := t, ret := .error () } := by
  have hloop := filterLoop_error (preparedPattern E true) invert h2 t.elements h1
  simp only [Basetree.filter, hloop]

theorem filter_invalid_regex_atomic_witness :
    Basetree.filter logTree "*" true true false =
      { receiver := logTree, ret := .error () } :=
  filter_invalid_regex_atomic logTree "*" true false (by decide) (by decide)

/- ===================================================================
   Construction claims: concrete filesystems.
   =================================================================== -/

def exFS : FSys := .dir true ["b.txt", "a.txt"] [("sub", .dir true ["c.txt"] [])]

def exTF : Basetree :=
  { kind := .file, name := "", path := "/r", leadingpath := "//", rootdir := "r",
    elements := ["a.txt", "b.txt", "sub/c.txt"], applied_filters := [] }

def exTD : Basetree :=
  { kind := .dir, name := "", path := "/r", leadingpath := "//", rootdir := "r",
    elements := ["sub"], applied_filters := [] }

theorem constructed_elements_nodup_sorted_witness :
    (exTF.elements.Nodup ∧ exTF.elements.Sorted (· < ·)) ∧
    (exTD.elements.Nodup ∧ exTD.elements.Sorted (· < ·)) := by
  have hwalk : walk (_parse_path_argument "/home" "/r") exFS =
      [("/r", ["sub"], ["b.txt", "a.txt"]), ("/r/sub", [], ["c.txt"])] := by
    simp only [exFS, walk, walkList]
    rfl
  have hvw : ValidWalk (_parse_path_argument "/home" "/r")
      (walk (_parse_path_argument "/home" "/r") exFS) := by
    rw [hwalk]
    unfold ValidWalk
    decide
  have hF : Filetree.init exFS "/home" "/r" "" = .ok exTF := by
    simp only [Filetree.init, hwalk]
    rfl
  have hD : Dirtree.init exFS "/home" "/r" "" = .ok exTD := by
    simp only [Dirtree.init, hwalk]
    rfl
  exact constructed_elements_nodup_sorted exFS "/home" "/r" "" exTF exTD hvw hF hD

def exFS2 : FSys := .dir true ["f1"] [("s", .dir false ["g"] [])]

/-- C9 counterexample.  With a readable root holding file `f1` and an
unreadable subdirectory `s` holding file `g`, `os.walk` (default
`onerror=None`) silently skips `s`, so `Filetree` construction completes
without error and returns a partial tree that lacks `s/g`: construction
does not fail on an unreadable subdirectory. -/
theorem init_unreadable_subdir_no_error :
    Filetree.init exFS2 "/home" "/r" "" =
      .ok { kind := .file, name := "", path := "/r", leadingpath := "//",
            rootdir := "r", elements := ["f1"], applied_filters := [] } ∧
    "s/g" ∉ (["f1"] : List String) := by
  constructor
  · have hwalk : walk (_parse_path_argument "/home" "/r") exFS2 =
        [("/r", ["s"], ["f1"])] := by
      simp only [exFS2, walk, walkList]
      rfl
    simp only [Filetree.init, hwalk]
    rfl
  · decide

/-- C9 amended.  An unreadable subdirectory never makes tree construction
fail: `os.walk` skips it silently and the constructor returns a tree that
omits that subtree's entries.  The only failure point is the root itself:
`Filetree.__init__` raises iff the root directory cannot be listed (via its
final `os.listdir` probe), and `Dirtree.__init__` never raises at all. -/
theorem init_error_iff_root_unreadable (fsys : FSys) (cwd path name : String) :
    ((∃ t, Filetree.init fsys cwd path name = .ok t) ↔ fsys.isReadable = true) ∧
    (∃ t, Dirtree.init fsys cwd path name = .ok t) := by
  cases fsys with
  | dir r fls subs =>
    cases r with
    | false => simp [Filetree.init, Dirtree.init, listdir, FSys.isReadable]
    | true => simp [Filetree.init, Dirtree.init, listdir, FSys.isReadable]

/- ===================================================================
   Supporting development: the `ValidWalk` hypothesis of C3 is not merely
   satisfiable — it holds for the walk of every well-formed filesystem
   (distinct, separator-free entry names in each directory), as real
   filesystems guarantee.
   =================================================================== -/

mutual

/-- Well-formedness of a directory as real filesystems guarantee it: within
each directory all entry names (files and subdirectories together) are
distinct and contain no separator, recursively. -/
def wfFS : FSys → Prop
  | .dir _ fls subs =>
    (fls ++ subs.map Prod.fst).Nodup ∧
    (∀ n ∈ fls ++ subs.map Prod.fst, '/' ∉ n.data) ∧
    wfSubs subs

/-- Well-formedness of each subdirectory in a list. -/
def wfSubs : List (String × FSys) → Prop
  | [] => True
  | p :: rest => wfFS p.2 ∧ wfSubs rest

end

theorem name_ext_inj (n1 n2 e1 e2 : List Char)
    (h1 : '/' ∉ n1) (h2 : '/' ∉ n2)
    (he1 : e1 = [] ∨ ∃ m, e1 = '/' :: m) (he2 : e2 = [] ∨ ∃ m, e2 = '/' :: m)
    (h : n1 ++ e1 = n2 ++ e2) : n1 = n2 := by
  rcases he1 with rfl | ⟨m1, rfl⟩
  · rcases he2 with rfl | ⟨m2, rfl⟩
    · simpa using h
    · rw [List.append_nil] at h
      exact absurd (h ▸ List.mem_append_right n2 (List.mem_cons_self _ _)) h1
  · rcases he2 with rfl | ⟨m2, rfl⟩
    · rw [List.append_nil] at h
      exact absurd (h.symm ▸ List.mem_append_right n1 (List.mem_cons_self _ _)) h2
    · exact (slash_append_inj n1 n2 m1 m2 h1 h2 h).1

mutual

theorem walk_shape (base : String) (fs : FSys) :
    ∀ t ∈ walk base fs, t.1 = base ∨ ∃ rest, t.1.data = base.data ++ '/' :: rest := by
  cases fs with
  | dir r fls subs =>
    cases r with
    | false => intro t ht; simp [walk] at ht
    | true =>
      intro t ht
      rw [walk] at ht
      rcases List.mem_cons.mp ht with rfl | ht2
      · exact Or.inl rfl
      · obtain ⟨p, hp, e, hdata, he⟩ := walkList_shape base subs t ht2
        exact Or.inr ⟨p.1.data ++ e, hdata⟩

theorem walkList_shape (base : String) (subs : List (String × FSys)) :
    ∀ t ∈ walkList base subs, ∃ p ∈ subs, ∃ e,
      t.1.data = base.data ++ '/' :: (p.1.data ++ e) ∧
      (e = [] ∨ ∃ m, e = '/' :: m) := by
  cases subs with
  | nil => intro t ht; simp [walkList] at ht
  | cons q rest =>
    obtain ⟨n, s⟩ := q
    intro t ht
    rw [walkList] at ht
    rcases List.mem_append.mp ht with hw | hr
    · rcases walk_shape (base ++ "/" ++ n) s t hw with heq | ⟨rest2, hd⟩
      · refine ⟨(n, s), List.mem_cons_self _ _, [], ?_, Or.inl rfl⟩
        rw [heq, data_join, List.append_nil]
      · refine ⟨(n, s), List.mem_cons_self _ _, '/' :: rest2, ?_, Or.inr ⟨rest2, rfl⟩⟩
        rw [hd, data_join]
        simp
    · obtain ⟨p, hp, e, hdata, he⟩ := walkList_shape base rest t hr
      exact ⟨p, List.mem_cons_of_mem _ hp, e, hdata, he⟩

end

/-- Every root reported inside the walk of the subdirectory `n` of `base`
extends `base/n`, possibly further below a separator. -/
theorem sub_walk_shape (base n : String) (s : FSys) (t : String × List String × List String)
    (ht : t ∈ walk (base ++ "/" ++ n) s) :
    ∃ e, t.1.data = base.data ++ '/' :: (n.data ++ e) ∧
      (e = [] ∨ ∃ m, e = '/' :: m) := by
  rcases walk_shape (base ++ "/" ++ n) s t ht with heq | ⟨rest2, hd⟩
  · refine ⟨[], ?_, Or.inl rfl⟩
    rw [heq, data_join, List.append_nil]
  · refine ⟨'/' :: rest2, ?_, Or.inr ⟨rest2, rfl⟩⟩
    rw [hd, data_join]
    simp

mutual

theorem walk_roots_nodup (base : String) (fs : FSys) (hwf : wfFS fs) :
    (walk base fs).Pairwise (fun t u => t.1 ≠ u.1) := by
  cases fs with
  | dir r fls subs =>
    cases r with
    | false => simp [walk]
    | true =>
      rw [walk, List.pairwise_cons]
      obtain ⟨hnd, hsl, hsubs⟩ : (fls ++ subs.map Prod.fst).Nodup ∧
          (∀ n ∈ fls ++ subs.map Prod.fst, '/' ∉ n.data) ∧ wfSubs subs := by
        rw [wfFS] at hwf; exact hwf
      constructor
      · intro u hu heq
        obtain ⟨p, hp, e, hdata, he⟩ := walkList_shape base subs u hu
        have hlen := congrArg List.length hdata
        rw [← heq] at hlen
        simp at hlen
      · apply walkList_roots_nodup base subs hsubs
        · exact (List.nodup_append.mp hnd).2.1
        · intro p hp
          exact hsl p.1 (List.mem_append_right fls (List.mem_map_of_mem Prod.fst hp))

theorem walkList_roots_nodup (base : String) (subs : List (String × FSys))
    (hwf : wfSubs subs) (hnames : (subs.map Prod.fst).Nodup)
    (hslash : ∀ p ∈ subs, '/' ∉ p.1.data) :
    (walkList base subs).Pairwise (fun t u => t.1 ≠ u.1) := by
  cases subs with
  | nil => simp [walkList]
  | cons q rest =>
    obtain ⟨n, s⟩ := q
    obtain ⟨hq, hrest⟩ : wfFS s ∧ wfSubs rest := by
      rw [wfSubs] at hwf; exact hwf
    rw [walkList, List.pairwise_append]
    refine ⟨walk_roots_nodup (base ++ "/" ++ n) s hq,
      walkList_roots_nodup base rest hrest
        (by simpa using hnames.of_cons)
        (fun p hp => hslash p (List.mem_cons_of_mem _ hp)), ?_⟩
    intro t1 ht1 t2 ht2 heq
    obtain ⟨e1, hd1, he1⟩ := sub_walk_shape base n s t1 ht1
    obtain ⟨p, hp, e2, hd2, he2⟩ := walkList_shape base rest t2 ht2
    rw [heq, hd2] at hd1
    have htail := (List.cons.inj (List.append_cancel_left hd1)).2
    have hn : '/' ∉ n.data := hslash (n, s) (List.mem_cons_self _ _)
    have hp2 : '/' ∉ p.1.data := hslash p (List.mem_cons_of_mem _ hp)
    have hnp : p.1.data = n.data :=
      name_ext_inj p.1.data n.data e2 e1 hp2 hn he2 he1 htail
    have hmem : n ∈ rest.map Prod.fst := by
      rw [← String.ext hnp]
      exact List.mem_map_of_mem Prod.fst hp
    simp only [List.map_cons, List.nodup_cons] at hnames
    exact hnames.1 hmem

end

mutual

theorem walk_triple_names (base : String) (fs : FSys) (hwf : wfFS fs) :
    ∀ t ∈ walk base fs,
      t.2.1.Nodup ∧ (∀ d ∈ t.2.1, '/' ∉ d.data) ∧
      t.2.2.Nodup ∧ (∀ f ∈ t.2.2, '/' ∉ f.data) := by
  cases fs with
  | dir r fls subs =>
    cases r with
    | false => simp [walk]
    | true =>
      obtain ⟨hnd, hsl, hsubs⟩ : (fls ++ subs.map Prod.fst).Nodup ∧
          (∀ n ∈ fls ++ subs.map Prod.fst, '/' ∉ n.data) ∧ wfSubs subs := by
        rw [wfFS] at hwf; exact hwf
      intro t ht
      rw [walk] at ht
      rcases List.mem_cons.mp ht with rfl | ht2
      · refine ⟨(List.nodup_append.mp hnd).2.1, ?_, (List.nodup_append.mp hnd).1, ?_⟩
        · intro d hd
          exact hsl d (List.mem_append_right fls hd)
        · intro f hf
          exact hsl f (List.mem_append_left _ hf)
      · exact walk_triple_names_list base subs hsubs t ht2

theorem walk_triple_names_list (base : String) (subs : List (String × FSys))
    (hwf : wfSubs subs) :
    ∀ t ∈ walkList base subs,
      t.2.1.Nodup ∧ (∀ d ∈ t.2.1, '/' ∉ d.data) ∧
      t.2.2.Nodup ∧ (∀ f ∈ t.2.2, '/' ∉ f.data) := by
  cases subs with
  | nil => simp [walkList]
  | cons q rest =>
    obtain ⟨n, s⟩ := q
    obtain ⟨hq, hrest⟩ : wfFS s ∧ wfSubs rest := by
      rw [wfSubs] at hwf; exact hwf
    intro t ht
    rw [walkList] at ht
    rcases List.mem_append.mp ht with hw | hr
    · exact walk_triple_names (base ++ "/" ++ n) s hq t hw
    · exact walk_triple_names_list base rest hrest t hr

end

/-- The walk of every well-formed filesystem from a non-empty root satisfies
all the guarantees `ValidWalk` assumes of a real `os.walk` result, so the
hypothesis of C3 is established, not merely assumed, for every well-formed
filesystem. -/
theorem walk_valid (root : String) (fs : FSys) (hr : root ≠ "") (hwf : wfFS fs) :
    ValidWalk root (walk root fs) := by
  refine ⟨List.pairwise_map.mpr (walk_roots_nodup root fs hwf), ?_⟩
  intro t ht
  have hshape := walk_shape root fs t ht
  have hnames := walk_triple_names root fs hwf t ht
  refine ⟨?_, ?_, hnames.1, hnames.2.1, hnames.2.2.1, hnames.2.2.2⟩
  · rcases hshape with heq | ⟨rest, hd⟩
    · exact Or.inl heq
    · refine Or.inr ⟨rest, ?_⟩
      rw [hd, String.data_append]
      simp
  · rcases hshape with heq | ⟨rest, hd⟩
    · rw [heq]; exact hr
    · intro he
      rw [he] at hd
      simp at hd
